import Mathlib

/-!
Verification development for the FPGA workload manager
(machsuite_app application + linked-list kernel queues).

The C sources are shallowly embedded: C `struct timespec` becomes a pair of
unbounded integers (C `long`; overflow never occurs in the claims below, and
representability bounds are stated as explicit hypotheses where a claim needs
them), linked-list queues become Lean lists paired with the explicit `size`
field the C code maintains, and every fallible C function returning `0` on
success and a negative error code otherwise becomes an `Option`-valued
function (`none` = negative return).
-/

namespace FpgaWm

/-! ### Time model (support.c) -/

/-- `struct timespec`: seconds and nanoseconds, both C `long`. -/
structure Timespec where
  tv_sec : Int
  tv_nsec : Int
deriving DecidableEq, Repr

/-- `NS_PER_SECOND` from support.h. -/
def NS_PER_SECOND : Int := 1000000000

/-- `LONG_MAX` for a 64-bit `long` (the ZCU build). Used only for the
sentinel initialization of unmeasured timestamps. -/
def LONG_MAX : Int := 2 ^ 63 - 1

/-- The sentinel "far future" timestamp the producer stores into
`measured_arrival_time` and `measured_finish_time` (setup.c:1672-1675). -/
def time_sentinel : Timespec := ⟨LONG_MAX, LONG_MAX⟩

/-- `greater_than_timespec` (support.c): compare seconds, fall back to
nanoseconds on a tie.  The C function returns `1`/`0`; we return `Bool`. -/
def greater_than_timespec (l r : Timespec) : Bool :=
  if l.tv_sec = r.tv_sec then l.tv_nsec > r.tv_nsec
  else l.tv_sec > r.tv_sec

/-- `less_than_timespec` (support.c). -/
def less_than_timespec (l r : Timespec) : Bool :=
  if l.tv_sec = r.tv_sec then l.tv_nsec < r.tv_nsec
  else l.tv_sec < r.tv_sec

/-- `equal_to_timespec` (support.c). -/
def equal_to_timespec (l r : Timespec) : Bool :=
  l.tv_sec = r.tv_sec ∧ l.tv_nsec = r.tv_nsec

/-- `add_timespec` (support.c): field-wise sum, then a single carry that the
source guards with `tmp.tv_nsec > NS_PER_SECOND` (strict). -/
def add_timespec (a b : Timespec) : Timespec :=
  let tmp : Timespec := ⟨a.tv_sec + b.tv_sec, a.tv_nsec + b.tv_nsec⟩
  if tmp.tv_nsec > NS_PER_SECOND then ⟨tmp.tv_sec + 1, tmp.tv_nsec - NS_PER_SECOND⟩
  else tmp

/-- `update_timer_ms` (support.c): add `msec` milliseconds to a timespec.
C `/` and `%` on `long` truncate toward zero, hence `Int.tdiv`/`Int.tmod`.
On nanosecond underflow the source only prints an error and leaves the
(already updated) fields as they are. -/
def update_timer_ms (time : Timespec) (msec : Int) : Timespec :=
  let sec1 := time.tv_sec + msec.tdiv 1000
  let remaining_ms := msec.tmod 1000
  let nsec1 := time.tv_nsec + remaining_ms * 1000000
  if nsec1 ≥ NS_PER_SECOND then
    ⟨sec1 + nsec1.tdiv NS_PER_SECOND, nsec1.tmod NS_PER_SECOND⟩
  else
    ⟨sec1, nsec1⟩

/-- Strict lexicographic order on `(tv_sec, tv_nsec)` pairs: the ordering the
spec means when it writes `<` on timestamps. -/
def lex_lt (a b : Timespec) : Prop :=
  a.tv_sec < b.tv_sec ∨ (a.tv_sec = b.tv_sec ∧ a.tv_nsec < b.tv_nsec)

instance (a b : Timespec) : Decidable (lex_lt a b) := by
  unfold lex_lt; infer_instance

theorem greater_than_timespec_eq_lex (l r : Timespec) :
    greater_than_timespec l r = decide (lex_lt r l) := by
  rcases l with ⟨ls, ln⟩; rcases r with ⟨rs, rn⟩
  by_cases h : ls = rs <;>
    simp [greater_than_timespec, lex_lt, h]
  omega

theorem less_than_timespec_eq_lex (l r : Timespec) :
    less_than_timespec l r = decide (lex_lt l r) := by
  rcases l with ⟨ls, ln⟩; rcases r with ⟨rs, rn⟩
  by_cases h : ls = rs <;>
    simp [less_than_timespec, lex_lt, h]

theorem equal_to_timespec_eq (l r : Timespec) :
    equal_to_timespec l r = decide (l = r) := by
  rcases l with ⟨ls, ln⟩; rcases r with ⟨rs, rn⟩
  simp [equal_to_timespec, Timespec.mk.injEq]

/-- C10 counterexample: two normalized inputs whose nanosecond fields sum to
exactly `NS_PER_SECOND`.  `add_timespec` leaves `tv_nsec = NS_PER_SECOND`,
which is outside `[0, NS_PER_SECOND)`, so the result is not normalized. -/
theorem add_timespec_not_normalized :
    (0:Int) ≤ (500000000:Int) ∧ (500000000:Int) < NS_PER_SECOND ∧
    add_timespec ⟨0, 500000000⟩ ⟨0, 500000000⟩ = ⟨0, 1000000000⟩ ∧
    ¬ ((add_timespec ⟨0, 500000000⟩ ⟨0, 500000000⟩).tv_nsec < NS_PER_SECOND) := by
  refine ⟨by norm_num, by norm_num [NS_PER_SECOND], ?_, ?_⟩ <;>
    simp [add_timespec, NS_PER_SECOND]

/-- C10 (amended): for normalized inputs, `add_timespec` returns the exact
sum, with `tv_nsec ∈ [0, NS_PER_SECOND]`; the upper bound is attained (and
normalization fails) exactly when the nanosecond fields sum to
`NS_PER_SECOND`: both directions of that biconditional are stated. -/
theorem add_timespec_exact (a b : Timespec)
    (ha0 : 0 ≤ a.tv_nsec) (ha1 : a.tv_nsec < NS_PER_SECOND)
    (hb0 : 0 ≤ b.tv_nsec) (hb1 : b.tv_nsec < NS_PER_SECOND) :
    (add_timespec a b).tv_sec * NS_PER_SECOND + (add_timespec a b).tv_nsec =
      (a.tv_sec + b.tv_sec) * NS_PER_SECOND + a.tv_nsec + b.tv_nsec ∧
    0 ≤ (add_timespec a b).tv_nsec ∧
    (add_timespec a b).tv_nsec ≤ NS_PER_SECOND ∧
    (a.tv_nsec + b.tv_nsec ≠ NS_PER_SECOND →
      (add_timespec a b).tv_nsec < NS_PER_SECOND) ∧
    (a.tv_nsec + b.tv_nsec = NS_PER_SECOND →
      (add_timespec a b).tv_nsec = NS_PER_SECOND) := by
  rcases a with ⟨as_, an⟩; rcases b with ⟨bs, bn⟩
  simp only [add_timespec, NS_PER_SECOND] at *
  split <;> simp_all <;> omega

/-- Witness for `add_timespec_exact` at a boundary input whose nanosecond
fields sum to exactly `NS_PER_SECOND`, so the "when" direction of the
biconditional is exercised non-vacuously. -/
theorem add_timespec_exact_witness :
    (add_timespec ⟨1, 400000000⟩ ⟨3, 600000000⟩).tv_sec * NS_PER_SECOND +
        (add_timespec ⟨1, 400000000⟩ ⟨3, 600000000⟩).tv_nsec =
      ((1:Int) + 3) * NS_PER_SECOND + 400000000 + 600000000 ∧
    0 ≤ (add_timespec ⟨1, 400000000⟩ ⟨3, 600000000⟩).tv_nsec ∧
    (add_timespec ⟨1, 400000000⟩ ⟨3, 600000000⟩).tv_nsec ≤ NS_PER_SECOND ∧
    ((400000000:Int) + 600000000 ≠ NS_PER_SECOND →
      (add_timespec ⟨1, 400000000⟩ ⟨3, 600000000⟩).tv_nsec <
        NS_PER_SECOND) ∧
    ((400000000:Int) + 600000000 = NS_PER_SECOND →
      (add_timespec ⟨1, 400000000⟩ ⟨3, 600000000⟩).tv_nsec =
        NS_PER_SECOND) :=
  add_timespec_exact ⟨1, 400000000⟩ ⟨3, 600000000⟩ (by norm_num)
    (by norm_num [NS_PER_SECOND]) (by norm_num)
    (by norm_num [NS_PER_SECOND])

/-! ### Kernel records and the linked-list kernel queue (queue_kernel / queue_ll.c)

The C queue is a singly linked list plus an `int size` field that the
operations maintain by hand; we keep both the element list and the `size`
field, so bookkeeping slips in the source stay observable.  Field defaults
mirror the `memset(&aux_kernel_data, 0, ...)` the producer performs before
filling a record. -/

/-- `kernel_data` (data_structures.h), restricted to the fields the verified
operations read or write. -/
structure kernel_data where
  initial_time : Timespec := ⟨0, 0⟩
  temp_id : Int := 0
  kernel_label : Int := 0
  num_executions : Int := 0
  cu : Int := 0
  slot_id : Nat := 0
  intended_arrival_time_ms : Int := 0
  commanded_arrival_time : Timespec := ⟨0, 0⟩
  measured_arrival_time : Timespec := ⟨0, 0⟩
  measured_finish_time : Timespec := ⟨0, 0⟩
deriving DecidableEq, Repr

/-- The linked-list queue: elements in head-to-tail order plus the explicit
`size` counter from the C struct. -/
structure queue where
  elems : List kernel_data
  size : Int
deriving DecidableEq, Repr

/-- `init_queue` (queue_ll.c). -/
def init_queue : queue := ⟨[], 0⟩

/-- `enqueue` (queue_ll.c): append at the tail, increment `size`.
(The C malloc-failure path is out of scope of the embedded heap model.) -/
def enqueue (q : queue) (d : kernel_data) : queue :=
  ⟨q.elems ++ [d], q.size + 1⟩

/-- `dequeue` (queue_ll.c): remove the head, decrement `size`; error (`-1`,
here `none`) on an empty queue. -/
def dequeue (q : queue) : Option (kernel_data × queue) :=
  match q.elems with
  | [] => none
  | d :: rest => some (d, ⟨rest, q.size - 1⟩)

/-- The `prev`/`tmp` walk of `dequeue_from` (queue_ll.c, non-zero `pos`
branch): remove the node at index `pos`, error if the list is shorter. -/
def remove_at_pos : List kernel_data → Nat → Option (kernel_data × List kernel_data)
  | [], _ => none
  | d :: rest, 0 => some (d, rest)
  | d :: rest, n + 1 => (remove_at_pos rest n).map fun p => (p.1, d :: p.2)

/-- `dequeue_from` (queue_ll.c): for `pos == 0` it delegates to `dequeue`
(which already decrements `size`) and then runs the shared final
`(q->size)--` a second time; for `pos ≥ 1` it removes the node at `pos`
and decrements `size` once. -/
def dequeue_from (q : queue) (pos : Nat) : Option (kernel_data × queue) :=
  match q.elems with
  | [] => none
  | _ :: _ =>
    if pos = 0 then
      (dequeue q).map fun p => (p.1, { p.2 with size := p.2.size - 1 })
    else
      (remove_at_pos q.elems pos).map fun p => (p.1, ⟨p.2, q.size - 1⟩)

/-- C9 (code bug): on a one-element queue with a consistent `size` field,
`dequeue_from q 0` removes the head, returns its data and succeeds exactly
like `dequeue q`, but leaves `size = -1` while zero nodes remain, because
the `pos == 0` path decrements `size` twice. -/
theorem dequeue_from_zero_double_decrement :
    dequeue_from ⟨[{}], 1⟩ 0 = some (({} : kernel_data), ⟨[], -1⟩) ∧
    dequeue ⟨[{}], 1⟩ = some (({} : kernel_data), ⟨[], 0⟩) ∧
    ((-1 : Int) ≠ ([] : List kernel_data).length) := by
  refine ⟨rfl, rfl, by decide⟩

/-! ### `dequeue_first_executable_kernel` (queue_ll.c) -/

/-- The do-while scan of `dequeue_first_executable_kernel` over the nodes
after the head: skip a node while `cu > free_slots || dup[label] == 1`,
remove the first node where that loop condition fails. -/
def scan_rest (free : Int) (dup : Int → Int) :
    List kernel_data → Option (kernel_data × List kernel_data)
  | [] => none
  | d :: rest =>
    if d.cu > free ∨ dup d.kernel_label = 1 then
      (scan_rest free dup rest).map fun p => (p.1, d :: p.2)
    else some (d, rest)

/-- `dequeue_first_executable_kernel` (queue_ll.c): the head is tested with
`cu <= free_slots && dup[label] == 0`; later nodes with the do-while
condition above (`dup[label] == 1`).  Success removes the node and
decrements `size`; reaching the tail returns `-1` (`none`). -/
def dequeue_first_executable_kernel (q : queue) (free : Int) (dup : Int → Int) :
    Option (kernel_data × queue) :=
  match q.elems with
  | [] => none
  | d :: rest =>
    if d.cu ≤ free ∧ dup d.kernel_label = 0 then some (d, ⟨rest, q.size - 1⟩)
    else (scan_rest free dup rest).map fun p => (p.1, ⟨d :: p.2, q.size - 1⟩)

/-- The spec's executability predicate:
`cu ≤ free_slots AND dup_table[label] == 0`. -/
def spec_executable (free : Int) (dup : Int → Int) (d : kernel_data) : Prop :=
  d.cu ≤ free ∧ dup d.kernel_label = 0

instance (free : Int) (dup : Int → Int) (d : kernel_data) :
    Decidable (spec_executable free dup d) := by
  unfold spec_executable; infer_instance

/-- The spec's `scan_and_remove_first_executable`, written from its words:
remove the first record satisfying `spec_executable`, keep everything else
in order, `none` when no record qualifies. -/
def spec_remove_first (free : Int) (dup : Int → Int) :
    List kernel_data → Option (kernel_data × List kernel_data)
  | [] => none
  | d :: rest =>
    if spec_executable free dup d then some (d, rest)
    else (spec_remove_first free dup rest).map fun p => (p.1, d :: p.2)

theorem scan_rest_eq_spec (free : Int) (dup : Int → Int)
    (h01 : ∀ l, dup l = 0 ∨ dup l = 1) (l : List kernel_data) :
    scan_rest free dup l = spec_remove_first free dup l := by
  induction l with
  | nil => rfl
  | cons d rest ih =>
    rcases h01 d.kernel_label with h | h <;>
      by_cases hcu : d.cu ≤ free <;>
        simp [scan_rest, spec_remove_first, spec_executable, h, hcu, ih]

theorem spec_remove_first_eq_none_iff (free : Int) (dup : Int → Int)
    (l : List kernel_data) :
    spec_remove_first free dup l = none ↔
      ∀ d ∈ l, ¬ spec_executable free dup d := by
  induction l with
  | nil => simp [spec_remove_first]
  | cons d rest ih =>
    by_cases hd : spec_executable free dup d <;>
      simp [spec_remove_first, hd, ih]

theorem spec_remove_first_eq_some (free : Int) (dup : Int → Int)
    (l : List kernel_data) :
    ∀ r l', spec_remove_first free dup l = some (r, l') →
      ∃ l₁ l₂, l = l₁ ++ r :: l₂ ∧ l' = l₁ ++ l₂ ∧
        (∀ d ∈ l₁, ¬ spec_executable free dup d) ∧
        spec_executable free dup r := by
  induction l with
  | nil => simp [spec_remove_first]
  | cons d rest ih =>
    intro r l' h
    by_cases hd : spec_executable free dup d
    · simp only [spec_remove_first, if_pos hd, Option.some.injEq, Prod.mk.injEq] at h
      exact ⟨[], rest, by simp [← h.1, ← h.2, hd]⟩
    · simp only [spec_remove_first, if_neg hd, Option.map_eq_some'] at h
      obtain ⟨⟨r₀, l₀⟩, hrec, heq⟩ := h
      obtain ⟨rfl, rfl⟩ := Prod.mk.injEq .. ▸ heq
      obtain ⟨l₁, l₂, h1, h2, h3, h4⟩ := ih r₀ l₀ hrec
      exact ⟨d :: l₁, l₂, by simp [h1], by simp [h2], by simpa [hd] using h3, h4⟩

/-- C1 (amended): provided every duplication-table entry is `0` or `1` (the
values the scheduler maintains), `dequeue_first_executable_kernel` removes
and returns exactly the first record with `cu ≤ free_slots` and a zero
duplication entry, leaves the other records in their original order, and
returns an error exactly when no record qualifies. -/
theorem dequeue_first_executable_kernel_correct
    (q : queue) (free : Int) (dup : Int → Int)
    (h01 : ∀ l, dup l = 0 ∨ dup l = 1) :
    dequeue_first_executable_kernel q free dup =
      (spec_remove_first free dup q.elems).map
        (fun p => (p.1, ⟨p.2, q.size - 1⟩)) ∧
    (spec_remove_first free dup q.elems = none ↔
      ∀ d ∈ q.elems, ¬ spec_executable free dup d) ∧
    (∀ r l', spec_remove_first free dup q.elems = some (r, l') →
      ∃ l₁ l₂, q.elems = l₁ ++ r :: l₂ ∧ l' = l₁ ++ l₂ ∧
        (∀ d ∈ l₁, ¬ spec_executable free dup d) ∧
        spec_executable free dup r) := by
  refine ⟨?_, spec_remove_first_eq_none_iff free dup q.elems,
    spec_remove_first_eq_some free dup q.elems⟩
  rcases q with ⟨elems, size⟩
  cases elems with
  | nil => rfl
  | cons d rest =>
    by_cases hd : spec_executable free dup d
    · have hd' : d.cu ≤ free ∧ dup d.kernel_label = 0 := hd
      simp only [dequeue_first_executable_kernel, spec_remove_first,
        if_pos hd', if_pos hd, Option.map_some']
    · simp only [dequeue_first_executable_kernel, spec_remove_first,
        if_neg hd, scan_rest_eq_spec free dup h01 rest]
      have : ¬ (d.cu ≤ free ∧ dup d.kernel_label = 0) := hd
      rw [if_neg this]
      cases spec_remove_first free dup rest <;> simp

/-- Witness for `dequeue_first_executable_kernel_correct`. -/
theorem dequeue_first_executable_kernel_correct_witness :
    dequeue_first_executable_kernel ⟨[{ cu := 4 }, { cu := 1 }], 2⟩ 2
        (fun _ => 0) =
      (spec_remove_first 2 (fun _ => 0) [{ cu := 4 }, { cu := 1 }]).map
        (fun p => (p.1, ⟨p.2, (2 : Int) - 1⟩)) ∧
    (spec_remove_first 2 (fun _ => 0) [{ cu := 4 }, { cu := 1 }] = none ↔
      ∀ d ∈ [({ cu := 4 } : kernel_data), { cu := 1 }],
        ¬ spec_executable 2 (fun _ => 0) d) ∧
    (∀ r l', spec_remove_first 2 (fun _ => 0)
        [({ cu := 4 } : kernel_data), { cu := 1 }] = some (r, l') →
      ∃ l₁ l₂, [({ cu := 4 } : kernel_data), { cu := 1 }] = l₁ ++ r :: l₂ ∧
        l' = l₁ ++ l₂ ∧
        (∀ d ∈ l₁, ¬ spec_executable 2 (fun _ => 0) d) ∧
        spec_executable 2 (fun _ => 0) r) :=
  dequeue_first_executable_kernel_correct ⟨[{ cu := 4 }, { cu := 1 }], 2⟩ 2
    (fun _ => 0) (fun _ => Or.inl rfl)

/-- A duplication table that is not `0/1`-valued: label `0` is duplicated,
label `1` carries the count `2`. -/
def dup_cx : Int → Int := fun l => if l = 0 then 1 else 2

/-- C1 counterexample: with the table `dup_cx`, no record of the queue
satisfies the claim's predicate `cu ≤ free_slots ∧ dup[label] = 0`, so by
the claim the call must fail; the code nevertheless removes and returns
the second record (its duplication entry is `2`, and the do-while skip
test `dup[label] == 1` does not catch it). -/
theorem dequeue_first_executable_kernel_cx :
    dequeue_first_executable_kernel
        ⟨[{ kernel_label := 0, cu := 1 }, { kernel_label := 1, cu := 1 }], 2⟩
        1 dup_cx =
      some ({ kernel_label := 1, cu := 1 },
        ⟨[{ kernel_label := 0, cu := 1 }], 1⟩) ∧
    ¬ spec_executable 1 dup_cx { kernel_label := 0, cu := 1 } ∧
    ¬ spec_executable 1 dup_cx { kernel_label := 1, cu := 1 } ∧
    dup_cx (1 : Int) ≠ 0 := by
  refine ⟨rfl, by decide, by decide, by decide⟩

/-! ### Per-slot online-window processing (`online_processing`, setup.c) -/

/-- The `online_data` snapshot written to the online buffer for one kernel:
label, measured arrival, measured finish (setup.c:448-450). -/
structure online_data where
  kernel_label : Int
  arrival_time : Timespec
  finish_time : Timespec
deriving DecidableEq, Repr

/-- The snapshot `online_processing` builds from a dequeued record. -/
def online_snapshot (r : kernel_data) : online_data :=
  ⟨r.kernel_label, r.measured_arrival_time, r.measured_finish_time⟩

/-- The write test of `online_processing` (setup.c:419):
`greater_than_timespec(tf, m0) && less_than_timespec(t0, mf)`. -/
def online_write_decision (m0 mf : Timespec) (r : kernel_data) : Bool :=
  greater_than_timespec r.measured_finish_time m0 &&
    less_than_timespec r.measured_arrival_time mf

/-- The retain test of `online_processing` (setup.c:473):
`greater_than_timespec(tf, mf) || equal_to_timespec(t0, tf)`. -/
def online_keep_decision (mf : Timespec) (r : kernel_data) : Bool :=
  greater_than_timespec r.measured_finish_time mf ||
    equal_to_timespec r.measured_arrival_time r.measured_finish_time

/-- The per-slot loop of `online_processing` (setup.c:387-495): dequeue the
slot's records in order; write a snapshot of each record passing the write
test, re-enqueue (at the tail, in order) each record passing the retain
test.  Returns (snapshots written, records kept). -/
def online_processing_slot (m0 mf : Timespec) :
    List kernel_data → List online_data × List kernel_data
  | [] => ([], [])
  | r :: rest =>
    let p := online_processing_slot m0 mf rest
    ((if online_write_decision m0 mf r then online_snapshot r :: p.1 else p.1),
     (if online_keep_decision mf r then r :: p.2 else p.2))

/-- C2: a dequeued record's snapshot is written to the window's online
buffer if and only if `measured_finish > m0` and `measured_arrival < mf`,
both strict lexicographic comparisons on `(tv_sec, tv_nsec)`; the written
snapshots are exactly those records, in order. -/
theorem online_processing_slot_writes (m0 mf : Timespec)
    (rs : List kernel_data) :
    (online_processing_slot m0 mf rs).1 =
      (rs.filter fun r =>
        decide (lex_lt m0 r.measured_finish_time) &&
          decide (lex_lt r.measured_arrival_time mf)).map online_snapshot := by
  induction rs with
  | nil => rfl
  | cons r rest ih =>
    have hw : online_write_decision m0 mf r =
        (decide (lex_lt m0 r.measured_finish_time) &&
          decide (lex_lt r.measured_arrival_time mf)) := by
      rw [online_write_decision, greater_than_timespec_eq_lex,
        less_than_timespec_eq_lex]
    rcases hb : online_write_decision m0 mf r with _ | _ <;>
      simp only [online_processing_slot, hb, if_false, if_true,
        Bool.false_eq_true, List.filter_cons, ← hw, hb, List.map_cons, ih]

/-- C3: a dequeued record is re-enqueued on the same slot's list iff
`measured_finish > mf` (lexicographic) or `measured_arrival =
measured_finish`; in particular a record still carrying the sentinel
initialization `(LONG_MAX, LONG_MAX)` in both fields always passes the
retain test (and is kept), and — whenever the window's measured-finish
bound is a representable `long` pair — never passes the write test. -/
theorem online_processing_slot_keeps (m0 mf : Timespec)
    (rs : List kernel_data) (r : kernel_data)
    (hs : mf.tv_sec ≤ LONG_MAX) (hn : mf.tv_nsec ≤ LONG_MAX) :
    ((online_processing_slot m0 mf rs).2 =
      rs.filter fun d =>
        decide (lex_lt mf d.measured_finish_time) ||
          decide (d.measured_arrival_time = d.measured_finish_time)) ∧
    (r.measured_arrival_time = time_sentinel →
      r.measured_finish_time = time_sentinel →
      online_keep_decision mf r = true ∧
      online_write_decision m0 mf r = false ∧
      (r ∈ rs → r ∈ (online_processing_slot m0 mf rs).2)) := by
  have hfilter : ∀ l : List kernel_data, (online_processing_slot m0 mf l).2 =
      l.filter fun d =>
        decide (lex_lt mf d.measured_finish_time) ||
          decide (d.measured_arrival_time = d.measured_finish_time) := by
    intro l
    induction l with
    | nil => rfl
    | cons d rest ih =>
      have hk : online_keep_decision mf d =
          (decide (lex_lt mf d.measured_finish_time) ||
            decide (d.measured_arrival_time = d.measured_finish_time)) := by
        rw [online_keep_decision, greater_than_timespec_eq_lex,
          equal_to_timespec_eq]
      rcases hb : online_keep_decision mf d with _ | _ <;>
        simp only [online_processing_slot, hb, if_false, if_true,
          Bool.false_eq_true, List.filter_cons, ← hk, hb, ih]
  refine ⟨hfilter rs, fun ha hf => ?_⟩
  have hkeep : online_keep_decision mf r = true := by
    simp [online_keep_decision, equal_to_timespec, ha, hf]
  refine ⟨hkeep, ?_, fun hmem => ?_⟩
  · have : less_than_timespec r.measured_arrival_time mf = false := by
      rcases mf with ⟨ms, mn⟩
      simp only [ha, time_sentinel, less_than_timespec] at *
      split <;> [skip; skip] <;> simp_all <;> omega
    simp [online_write_decision, this]
  · rw [hfilter rs]
    have : (decide (lex_lt mf r.measured_finish_time) ||
        decide (r.measured_arrival_time = r.measured_finish_time)) = true := by
      simp [ha, hf]
    exact List.mem_filter.mpr ⟨hmem, this⟩

/-- Witness for `online_processing_slot_keeps`: one sentinel record and one
finished record, window bounds `(10,0)..(20,0)`. -/
theorem online_processing_slot_keeps_witness :
    ((online_processing_slot ⟨10, 0⟩ ⟨20, 0⟩
        [{ measured_arrival_time := time_sentinel,
           measured_finish_time := time_sentinel }]).2 =
      ([{ measured_arrival_time := time_sentinel,
           measured_finish_time := time_sentinel }] :
          List kernel_data).filter fun d =>
        decide (lex_lt ⟨20, 0⟩ d.measured_finish_time) ||
          decide (d.measured_arrival_time = d.measured_finish_time)) ∧
    (({ measured_arrival_time := time_sentinel,
        measured_finish_time := time_sentinel } :
          kernel_data).measured_arrival_time = time_sentinel →
      ({ measured_arrival_time := time_sentinel,
         measured_finish_time := time_sentinel } :
          kernel_data).measured_finish_time = time_sentinel →
      online_keep_decision ⟨20, 0⟩
          { measured_arrival_time := time_sentinel,
            measured_finish_time := time_sentinel } = true ∧
      online_write_decision ⟨10, 0⟩ ⟨20, 0⟩
          { measured_arrival_time := time_sentinel,
            measured_finish_time := time_sentinel } = false ∧
      (({ measured_arrival_time := time_sentinel,
          measured_finish_time := time_sentinel } : kernel_data) ∈
          [({ measured_arrival_time := time_sentinel,
              measured_finish_time := time_sentinel } : kernel_data)] →
        ({ measured_arrival_time := time_sentinel,
           measured_finish_time := time_sentinel } : kernel_data) ∈
          (online_processing_slot ⟨10, 0⟩ ⟨20, 0⟩
            [{ measured_arrival_time := time_sentinel,
               measured_finish_time := time_sentinel }]).2)) :=
  online_processing_slot_keeps ⟨10, 0⟩ ⟨20, 0⟩
    [{ measured_arrival_time := time_sentinel,
       measured_finish_time := time_sentinel }]
    { measured_arrival_time := time_sentinel,
      measured_finish_time := time_sentinel }
    (by norm_num [LONG_MAX]) (by norm_num [LONG_MAX])

/-! ### One iteration of the dispatch-scheduler loop (queue_manager_thread,
setup.c:599-697), restricted to its effect on
`kernels_are_executable_variable`.

The scheduler clears the flag under the service lock (line 637), releases
the lock, scans the queue, and then either leaves the flag untouched on the
dead-end path (`continue`, lines 678-684) or sets it to `1` on a successful
dispatch (line 691).  `ext` models the writes that the producer or a
completing worker may perform on the flag while the scheduler is outside
the service lock; `flag0` is the flag value when the iteration starts. -/

def scheduler_iteration (q : queue) (free : Int) (dup : Int → Int)
    (ext : Bool → Bool) (flag0 : Bool) : Bool × Option (kernel_data × queue) :=
  let _ := flag0
  -- line 637: the single clear, before the scan
  let flag1 : Bool := false
  -- service lock released during the scan: concurrent setters act now
  let flag2 := ext flag1
  match dequeue_first_executable_kernel q free dup with
  | none => (flag2, none)
  | some (r, q') => (true, some (r, q'))

/-- C5: in every scheduler iteration the executability flag is cleared
exactly once before the scan (the result does not depend on the incoming
flag value, and with no concurrent writer a dead-end iteration ends with
the flag clear); on the dead-end path the scheduler writes nothing further,
so the flag ends as whatever the concurrent setters made of the cleared
flag; on a successful dispatch the flag ends set. -/
theorem scheduler_iteration_flag_discipline
    (q : queue) (free : Int) (dup : Int → Int) (ext : Bool → Bool)
    (flag0 flag0' : Bool) :
    (scheduler_iteration q free dup ext flag0 =
      scheduler_iteration q free dup ext flag0') ∧
    (dequeue_first_executable_kernel q free dup = none →
      scheduler_iteration q free dup ext flag0 = (ext false, none)) ∧
    (∀ r q', dequeue_first_executable_kernel q free dup = some (r, q') →
      scheduler_iteration q free dup ext flag0 = (true, some (r, q'))) ∧
    ((∀ b, ext b = b) →
      dequeue_first_executable_kernel q free dup = none →
      (scheduler_iteration q free dup ext flag0).1 = false) := by
  refine ⟨rfl, fun h => ?_, fun r q' h => ?_, fun hid h => ?_⟩ <;>
    simp [scheduler_iteration, h] <;> simp [hid]

/-- Witness for `scheduler_iteration_flag_discipline`: an empty queue (the
scan dead-ends) and a concurrent setter that raises the flag. -/
theorem scheduler_iteration_flag_discipline_witness :
    (scheduler_iteration init_queue 8 (fun _ => 0) (fun _ => true) true =
      scheduler_iteration init_queue 8 (fun _ => 0) (fun _ => true) false) ∧
    (dequeue_first_executable_kernel init_queue 8 (fun _ => 0) = none →
      scheduler_iteration init_queue 8 (fun _ => 0) (fun _ => true) true =
        ((fun _ => true : Bool → Bool) false, none)) ∧
    (∀ r q', dequeue_first_executable_kernel init_queue 8 (fun _ => 0) =
        some (r, q') →
      scheduler_iteration init_queue 8 (fun _ => 0) (fun _ => true) true =
        (true, some (r, q'))) ∧
    ((∀ b, (fun _ => true : Bool → Bool) b = b) →
      dequeue_first_executable_kernel init_queue 8 (fun _ => 0) = none →
      (scheduler_iteration init_queue 8 (fun _ => 0) (fun _ => true) true).1 =
        false) :=
  scheduler_iteration_flag_discipline init_queue 8 (fun _ => 0)
    (fun _ => true) true false

/-! ### Execution-modes ring buffers (execution_modes_buffers.c) -/

/-- The cursor state of `execution_modes_buffers_t`: the ring length
`total_iterations` (= `measurements_per_training`) and the write cursor
`current_iteration`.  The three `current` pointers are derived data,
returned by `execution_modes_buffers_toggle` below as byte offsets from the
corresponding base pointer. -/
structure execution_modes_buffers_state where
  total_iterations : Nat
  current_iteration : Nat
deriving DecidableEq, Repr

/-- The state right after `execution_modes_buffers_init M`:
`current_iteration = 0`. -/
def execution_modes_buffers_init_state (M : Nat) :
    execution_modes_buffers_state := ⟨M, 0⟩

/-- `execution_modes_buffers_toggle` (execution_modes_buffers.c:232-250):
advance the cursor modulo `total_iterations`, then recompute the three
current pointers as `base + SIZE * cursor`.  The segment sizes
`POWER_FILE_SIZE`, `TRACES_FILE_SIZE`, `ONLINE_FILE_SIZE` are compile-time
configuration constants, taken here as parameters `psize tsize osize`. -/
def execution_modes_buffers_toggle (psize tsize osize : Nat)
    (st : execution_modes_buffers_state) :
    execution_modes_buffers_state × Nat × Nat × Nat :=
  let cur := (st.current_iteration + 1) % st.total_iterations
  ({ st with current_iteration := cur }, psize * cur, tsize * cur, osize * cur)

theorem execution_modes_buffers_toggle_iterate (psize tsize osize M : Nat) :
    ∀ k, (fun s => (execution_modes_buffers_toggle psize tsize osize s).1)^[k]
        (execution_modes_buffers_init_state M) = ⟨M, k % M⟩ := by
  intro k
  induction k with
  | zero => simp [execution_modes_buffers_init_state]
  | succ k ih =>
    rw [Function.iterate_succ_apply', ih]
    simp only [execution_modes_buffers_toggle]
    exact congrArg _ (Nat.mod_add_mod k M 1 ▸ rfl)

/-- C8: with `M = measurements_per_training > 1`, every toggle advances the
cursor by exactly one segment modulo `M` (after `M` consecutive toggles
from the initial state the cursor is back at segment `0`), and the returned
power/traces/online pointers equal the corresponding base pointer plus the
segment size times the new cursor value. -/
theorem execution_modes_buffers_toggle_ring (psize tsize osize : Nat)
    (st : execution_modes_buffers_state) (hM : 1 < st.total_iterations) :
    (execution_modes_buffers_toggle psize tsize osize st).1.total_iterations =
      st.total_iterations ∧
    (execution_modes_buffers_toggle psize tsize osize st).1.current_iteration =
      (st.current_iteration + 1) % st.total_iterations ∧
    (execution_modes_buffers_toggle psize tsize osize st).2.1 =
      psize * ((st.current_iteration + 1) % st.total_iterations) ∧
    (execution_modes_buffers_toggle psize tsize osize st).2.2.1 =
      tsize * ((st.current_iteration + 1) % st.total_iterations) ∧
    (execution_modes_buffers_toggle psize tsize osize st).2.2.2 =
      osize * ((st.current_iteration + 1) % st.total_iterations) ∧
    (fun s => (execution_modes_buffers_toggle psize tsize osize s).1)^[
        st.total_iterations]
        (execution_modes_buffers_init_state st.total_iterations) =
      execution_modes_buffers_init_state st.total_iterations := by
  refine ⟨rfl, rfl, rfl, rfl, rfl, ?_⟩
  rw [execution_modes_buffers_toggle_iterate, Nat.mod_self]
  rfl

/-- Witness for `execution_modes_buffers_toggle_ring` at `M = 3`. -/
theorem execution_modes_buffers_toggle_ring_witness :
    (execution_modes_buffers_toggle 2 3 5 ⟨3, 1⟩).1.total_iterations = 3 ∧
    (execution_modes_buffers_toggle 2 3 5 ⟨3, 1⟩).1.current_iteration =
      (1 + 1) % 3 ∧
    (execution_modes_buffers_toggle 2 3 5 ⟨3, 1⟩).2.1 = 2 * ((1 + 1) % 3) ∧
    (execution_modes_buffers_toggle 2 3 5 ⟨3, 1⟩).2.2.1 = 3 * ((1 + 1) % 3) ∧
    (execution_modes_buffers_toggle 2 3 5 ⟨3, 1⟩).2.2.2 = 5 * ((1 + 1) % 3) ∧
    (fun s => (execution_modes_buffers_toggle 2 3 5 s).1)^[3]
        (execution_modes_buffers_init_state 3) =
      execution_modes_buffers_init_state 3 :=
  execution_modes_buffers_toggle_ring 2 3 5 ⟨3, 1⟩ (by decide)

/-! ### Producer admission (main, setup.c:1654-1752)

The producer reads three per-workload binary files (labels, execution
counts, inter-arrival times), builds one record per index, enqueues every
record into the generation queue, and then moves every record — paced by a
sleep — into the execution queue.  The buffers are modeled as index
functions; the `rand()`-driven compute-unit choice is a further input
stream `cus`. -/

/-- `NUM_LABELS` (`TYPES_OF_KERNELS`): the number of kernel kinds. -/
def TYPES_OF_KERNELS : Int := 11

/-- One iteration of the fill loop (setup.c:1655-1701): build the record
for index `i` from the input buffers and advance the schedule timer. -/
def admit_kernel (t0 : Timespec) (labels execs arrivals cus : Nat → Int)
    (i : Nat) (timer : Timespec) : kernel_data × Timespec :=
  let timer' := update_timer_ms timer (arrivals i)
  ({ initial_time := t0
     temp_id := i
     kernel_label := labels i
     num_executions := execs i
     cu := cus i
     slot_id := 0
     intended_arrival_time_ms := arrivals i
     commanded_arrival_time := timer'
     measured_arrival_time := time_sentinel
     measured_finish_time := time_sentinel }, timer')

/-- The fill loop (setup.c:1655-1701): every record is enqueued into the
generation queue; no field of the input buffers is validated. -/
def fill_kernel_generation_queue (n : Nat) (t0 : Timespec)
    (labels execs arrivals cus : Nat → Int) : queue × Timespec :=
  (List.range n).foldl
    (fun acc i =>
      let p := admit_kernel t0 labels execs arrivals cus i acc.2
      (enqueue acc.1 p.1, p.2))
    (init_queue, t0)

/-- The transfer loop (setup.c:1703-1752): dequeue each record from the
generation queue and enqueue it — unmodified — into the execution queue.
(The C loop exits the process if a dequeue fails; the loop count always
equals the fill count, so that path is unreachable.) -/
def transfer_loop : Nat → queue × queue → queue × queue
  | 0, acc => acc
  | k + 1, acc =>
    match dequeue acc.1 with
    | none => acc
    | some (d, gq') => transfer_loop k (gq', enqueue acc.2 d)

/-- The execution queue contents after a full admission round. -/
def kernel_admission (n : Nat) (t0 : Timespec)
    (labels execs arrivals cus : Nat → Int) : queue :=
  (transfer_loop n
    ((fill_kernel_generation_queue n t0 labels execs arrivals cus).1,
      init_queue)).2

theorem fill_kernel_generation_queue_proj (n : Nat) (t0 : Timespec)
    (labels execs arrivals cus : Nat → Int) :
    ((fill_kernel_generation_queue n t0 labels execs arrivals cus).1.elems.map
        fun d => (d.kernel_label, d.num_executions)) =
      (List.range n).map fun i => (labels i, execs i) := by
  induction n with
  | zero => rfl
  | succ n ih =>
    rw [fill_kernel_generation_queue, List.range_succ, List.foldl_append] at *
    simp only [List.foldl_cons, List.foldl_nil, List.map_append]
    rw [← fill_kernel_generation_queue] at *
    simp [enqueue, admit_kernel, ih]

theorem transfer_loop_spec :
    ∀ (n : Nat) (gq outq : queue), gq.elems.length = n →
      (transfer_loop n (gq, outq)).2.elems = outq.elems ++ gq.elems := by
  intro n
  induction n with
  | zero =>
    intro gq outq h
    rw [List.length_eq_zero] at h
    simp [transfer_loop, h]
  | succ n ih =>
    intro gq outq h
    rcases gq with ⟨elems, size⟩
    cases elems with
    | nil => simp at h
    | cons d rest =>
      simp only [List.length_cons, Nat.succ.injEq] at h
      simp only [transfer_loop, dequeue]
      rw [ih ⟨rest, size - 1⟩ (enqueue outq d) h]
      simp [enqueue]

/-- C7 (amended): admission performs no validation at all — for every
workload size and every content of the input buffers, the execution queue
receives exactly the records built from the buffers, in order, with the
labels and execution counts copied through unchecked (out-of-range labels
and non-positive execution counts included). -/
theorem kernel_admission_no_validation (n : Nat) (t0 : Timespec)
    (labels execs arrivals cus : Nat → Int) :
    ((kernel_admission n t0 labels execs arrivals cus).elems.map
        fun d => (d.kernel_label, d.num_executions)) =
      (List.range n).map fun i => (labels i, execs i) := by
  have hlen : (fill_kernel_generation_queue n t0 labels execs
      arrivals cus).1.elems.length = n := by
    have := congrArg List.length
      (fill_kernel_generation_queue_proj n t0 labels execs arrivals cus)
    simpa using this
  rw [kernel_admission, transfer_loop_spec n _ init_queue hlen]
  simpa [init_queue] using
    fill_kernel_generation_queue_proj n t0 labels execs arrivals cus

/-- C7 counterexample: a one-record workload whose label `11` is outside
`[0, TYPES_OF_KERNELS)` and whose execution count `0` is not positive is
admitted verbatim into the execution queue — no rejection happens. -/
theorem kernel_admission_cx :
    kernel_admission 1 ⟨0, 0⟩ (fun _ => 11) (fun _ => 0) (fun _ => 0)
        (fun _ => 1) =
      ⟨[{ kernel_label := 11, num_executions := 0, cu := 1,
          measured_arrival_time := time_sentinel,
          measured_finish_time := time_sentinel }], 1⟩ ∧
    ¬ ((0:Int) ≤ 11 ∧ (11:Int) < TYPES_OF_KERNELS) ∧
    ¬ ((0:Int) > 0) := by
  refine ⟨?_, by decide, by decide⟩
  rfl

/-! ### Slot allocation (queue_manager_thread, setup.c:737-745)

`slots_in_use` is a fixed array of `NUM_SLOTS` ints used as booleans; the
dispatch path walks it from index `0`, claims the first free slots until
`cu` of them are claimed, and ORs the corresponding bit positions into the
record's `slot_id` mask. -/

/-- Number of set bits of a natural number. -/
def popcount : Nat → Nat
  | 0 => 0
  | n + 1 => (n + 1) % 2 + popcount ((n + 1) / 2)
decreasing_by exact Nat.div_lt_self (Nat.succ_pos n) Nat.one_lt_two

theorem popcount_two_step (n : Nat) : popcount n = n % 2 + popcount (n / 2) := by
  cases n with
  | zero => simp [popcount]
  | succ m => rw [popcount]

theorem popcount_two_pow (p : Nat) : popcount (2 ^ p) = 1 := by
  induction p with
  | zero =>
    rw [pow_zero, popcount_two_step]
    norm_num
    simp [popcount]
  | succ p ih =>
    rw [popcount_two_step, pow_succ]
    simp [Nat.mul_div_cancel, ih]

theorem lor_div_two (m n : Nat) : (m ||| n) / 2 = m / 2 ||| n / 2 :=
  Nat.eq_of_testBit_eq fun i => by
    rw [← Nat.testBit_succ, Nat.testBit_lor, Nat.testBit_succ,
      Nat.testBit_succ, ← Nat.testBit_lor]

theorem land_div_two (m n : Nat) : (m &&& n) / 2 = m / 2 &&& n / 2 :=
  Nat.eq_of_testBit_eq fun i => by
    rw [← Nat.testBit_succ, Nat.testBit_land, Nat.testBit_succ,
      Nat.testBit_succ, ← Nat.testBit_land]

theorem lor_eq_zero_left {m n : Nat} (h : m ||| n = 0) : m = 0 :=
  Nat.eq_of_testBit_eq fun i => by
    have := congrArg (fun x => Nat.testBit x i) h
    simp only [Nat.testBit_lor, Nat.zero_testBit, Bool.or_eq_false_iff] at this
    simp [this.1]

theorem mod_two_lor_of_disjoint {m n : Nat} (h : m &&& n = 0) :
    (m ||| n) % 2 = m % 2 + n % 2 := by
  have hnb : ¬ (m % 2 = 1 ∧ n % 2 = 1) := by
    intro hu
    have h0 : (Nat.testBit m 0 && Nat.testBit n 0) = false := by
      rw [← Nat.testBit_land, h, Nat.zero_testBit]
    simp only [Nat.testBit_zero, hu.1, hu.2] at h0
    norm_num at h0
  have hor : (m ||| n) % 2 = 1 ↔ (m % 2 = 1 ∨ n % 2 = 1) :=
    Nat.or_mod_two_eq_one
  omega

theorem popcount_lor_disjoint :
    ∀ m n : Nat, m &&& n = 0 → popcount (m ||| n) = popcount m + popcount n := by
  intro m
  induction m using Nat.strong_induction_on with
  | _ m ih =>
    intro n h
    cases Nat.eq_zero_or_pos m with
    | inl hm => simp [hm, popcount]
    | inr hm =>
      have hdiv : m / 2 &&& n / 2 = 0 := by
        rw [← land_div_two, h]
      have hrec := ih (m / 2) (Nat.div_lt_self hm Nat.one_lt_two) (n / 2) hdiv
      rw [popcount_two_step (m ||| n), lor_div_two, hrec,
        mod_two_lor_of_disjoint h, popcount_two_step m, popcount_two_step n]
      omega

/-- Number of free (value `0`) entries of the `slots_in_use` table. -/
def count_false (slots : List Bool) : Nat := slots.countP (fun b => !b)

/-- The indices of the free entries of `slots`, in increasing order,
starting the walk at absolute index `i` — the spec-side description of the
"first free slots, lowest index first" policy. -/
def free_positions : List Bool → Nat → List Nat
  | [], _ => []
  | true :: rest, i => free_positions rest (i + 1)
  | false :: rest, i => i :: free_positions rest (i + 1)

theorem free_positions_length :
    ∀ (slots : List Bool) (i : Nat),
      (free_positions slots i).length = count_false slots := by
  intro slots
  induction slots with
  | nil => intro i; rfl
  | cons b rest ih =>
    intro i
    cases b with
    | true =>
      simp only [free_positions, count_false, List.countP_cons]
      simp [ih (i + 1), count_false]
    | false =>
      simp only [free_positions, List.length_cons, count_false,
        List.countP_cons]
      simp [ih (i + 1), count_false]

theorem le_of_mem_free_positions :
    ∀ (slots : List Bool) (i p : Nat), p ∈ free_positions slots i → i ≤ p := by
  intro slots
  induction slots with
  | nil => intro i p h; simp [free_positions] at h
  | cons b rest ih =>
    intro i p h
    cases b with
    | true =>
      simp only [free_positions] at h
      exact Nat.le_of_succ_le (ih (i + 1) p h)
    | false =>
      simp only [free_positions, List.mem_cons] at h
      rcases h with rfl | h
      · exact Nat.le_refl p
      · exact Nat.le_of_succ_le (ih (i + 1) p h)

theorem mem_free_positions_free :
    ∀ (slots : List Bool) (i p : Nat), p ∈ free_positions slots i →
      i ≤ p ∧ p - i < slots.length ∧ slots.getD (p - i) true = false := by
  intro slots
  induction slots with
  | nil => intro i p h; simp [free_positions] at h
  | cons b rest ih =>
    intro i p h
    cases b with
    | true =>
      simp only [free_positions] at h
      obtain ⟨h1, h2, h3⟩ := ih (i + 1) p h
      have hstep : p - i = (p - (i + 1)) + 1 := by omega
      refine ⟨by omega, by simp; omega, ?_⟩
      rw [hstep, List.getD_cons_succ]
      exact h3
    | false =>
      simp only [free_positions, List.mem_cons] at h
      rcases h with rfl | h
      · simp
      · obtain ⟨h1, h2, h3⟩ := ih (i + 1) p h
        have hstep : p - i = (p - (i + 1)) + 1 := by omega
        refine ⟨by omega, by simp; omega, ?_⟩
        rw [hstep, List.getD_cons_succ]
        exact h3

theorem free_positions_sorted :
    ∀ (slots : List Bool) (i : Nat), (free_positions slots i).Sorted (· < ·) := by
  intro slots
  induction slots with
  | nil => intro i; simp [free_positions]
  | cons b rest ih =>
    intro i
    cases b with
    | true => simpa [free_positions] using ih (i + 1)
    | false =>
      simp only [free_positions, List.sorted_cons]
      exact ⟨fun p hp => lt_of_lt_of_le (Nat.lt_succ_self i)
        (le_of_mem_free_positions rest (i + 1) p hp), ih (i + 1)⟩

/-- The slot-claiming loop of the dispatch path (setup.c:737-745): walk the
table from absolute index `i` with `j` slots already claimed, claim each
free slot (set it and OR `1 << index` into the accumulated mask), stop as
soon as the claim count reaches `cu` or the table ends.  Returns the
updated table and the mask of newly claimed bits. -/
def alloc_slots : List Bool → Nat → Nat → Nat → List Bool × Nat
  | [], _, _, _ => ([], 0)
  | true :: rest, i, j, cu =>
    let p := alloc_slots rest (i + 1) j cu
    (true :: p.1, p.2)
  | false :: rest, i, j, cu =>
    if j + 1 = cu then (true :: rest, 2 ^ i)
    else
      let p := alloc_slots rest (i + 1) (j + 1) cu
      (true :: p.1, 2 ^ i ||| p.2)

theorem alloc_slots_spec :
    ∀ (slots : List Bool) (i j cu : Nat), j < cu →
      cu - j ≤ count_false slots →
      (alloc_slots slots i j cu).1.length = slots.length ∧
      (∀ k, (alloc_slots slots i j cu).2.testBit k =
        decide (k ∈ (free_positions slots i).take (cu - j))) ∧
      popcount (alloc_slots slots i j cu).2 = cu - j ∧
      (∀ k, (alloc_slots slots i j cu).1.getD k true =
        (slots.getD k true ||
          decide ((i + k) ∈ (free_positions slots i).take (cu - j)))) := by
  intro slots
  induction slots with
  | nil =>
    intro i j cu hj hfree
    simp [count_false] at hfree
    omega
  | cons b rest ih =>
    intro i j cu hj hfree
    cases b with
    | true =>
      have hfree2 : cu - j ≤ count_false rest := by
        simpa [count_false, List.countP_cons] using hfree
      obtain ⟨h1, h2, h3, h4⟩ := ih (i + 1) j cu hj hfree2
      refine ⟨by simpa [alloc_slots] using h1, ?_, ?_, ?_⟩
      · intro k; simpa [alloc_slots, free_positions] using h2 k
      · simpa [alloc_slots, free_positions] using h3
      · intro k
        cases k with
        | zero => simp [alloc_slots, free_positions]
        | succ k =>
          simp only [alloc_slots, free_positions, List.getD_cons_succ]
          rw [h4 k]
          congr 3
          omega
    | false =>
      by_cases hlast : j + 1 = cu
      · have hcuj : cu - j = 1 := by omega
        refine ⟨by simp [alloc_slots, hlast], ?_, ?_, ?_⟩
        · intro k
          simp only [alloc_slots, if_pos hlast, free_positions, hcuj,
            List.take_succ_cons, List.take_zero]
          rw [Nat.testBit_two_pow]
          simp [eq_comm]
        · simp only [alloc_slots, if_pos hlast, hcuj]
          exact popcount_two_pow i
        · intro k
          simp only [alloc_slots, if_pos hlast, free_positions, hcuj,
            List.take_succ_cons, List.take_zero]
          cases k with
          | zero => simp
          | succ k =>
            simp only [List.getD_cons_succ]
            have hne : ¬ (i + (k + 1) ∈ [i]) := by
              simp only [List.mem_singleton]
              omega
            simp [hne]
      · have hj2 : j + 1 < cu := by omega
        have hfree2 : cu - (j + 1) ≤ count_false rest := by
          simp only [count_false, List.countP_cons] at hfree ⊢
          simp at hfree
          omega
        obtain ⟨h1, h2, h3, h4⟩ := ih (i + 1) (j + 1) cu hj2 hfree2
        have htake : (free_positions (false :: rest) i).take (cu - j) =
            i :: (free_positions rest (i + 1)).take (cu - (j + 1)) := by
          simp only [free_positions]
          have hstep : cu - j = (cu - (j + 1)) + 1 := by omega
          rw [hstep, List.take_succ_cons]
        have hdisj : 2 ^ i &&& (alloc_slots rest (i + 1) (j + 1) cu).2 = 0 := by
          apply Nat.eq_of_testBit_eq
          intro k
          rw [Nat.testBit_land, Nat.testBit_two_pow, h2 k, Nat.zero_testBit]
          by_cases hk : i = k
          · subst hk
            have hmem : ¬ (i ∈ (free_positions rest (i + 1)).take (cu - (j + 1))) := by
              intro hmem
              have := le_of_mem_free_positions rest (i + 1) i
                (List.take_subset _ _ hmem)
              omega
            simp [hmem]
          · simp [hk]
        refine ⟨by simp [alloc_slots, if_neg hlast, h1], ?_, ?_, ?_⟩
        · intro k
          simp only [alloc_slots, if_neg hlast, htake]
          rw [Nat.testBit_lor, Nat.testBit_two_pow, h2 k]
          by_cases hk : k = i
          · subst hk; simp
          · have hik : ¬ (i = k) := fun hx => hk hx.symm
            simp [hk, hik]
        · simp only [alloc_slots, if_neg hlast]
          rw [popcount_lor_disjoint _ _ hdisj, popcount_two_pow, h3]
          omega
        · intro k
          simp only [alloc_slots, if_neg hlast, htake]
          cases k with
          | zero => simp
          | succ k =>
            simp only [List.getD_cons_succ]
            rw [h4 k]
            have hne : ¬ (i + (k + 1) = i) := by omega
            have harith : (i + 1) + k = i + (k + 1) := by omega
            simp [List.mem_cons, hne, harith]

/-- C6: when the dispatch scheduler claims slots for a dequeued record of
width `cu ≥ 1` and at least `cu` entries of `slots_in_use` are free, the
loop marks exactly the `cu` lowest-indexed free slots as in use and ORs
exactly those `cu` bit positions into the record's mask: the chosen indices
are the first `cu` free ones in increasing order, the mask's bits are
exactly those indices, its popcount is `cu`, and every other table entry is
unchanged. -/
theorem alloc_slots_first_free (slots : List Bool) (cu : Nat)
    (h1 : 1 ≤ cu) (h2 : cu ≤ count_false slots) :
    ((free_positions slots 0).take cu).length = cu ∧
    ((free_positions slots 0).take cu).Sorted (· < ·) ∧
    (∀ p ∈ (free_positions slots 0).take cu,
      p < slots.length ∧ slots.getD p true = false) ∧
    (∀ k, (alloc_slots slots 0 0 cu).2.testBit k =
      decide (k ∈ (free_positions slots 0).take cu)) ∧
    popcount (alloc_slots slots 0 0 cu).2 = cu ∧
    (alloc_slots slots 0 0 cu).1.length = slots.length ∧
    (∀ k, (alloc_slots slots 0 0 cu).1.getD k true =
      (slots.getD k true || decide (k ∈ (free_positions slots 0).take cu))) := by
  have hj : 0 < cu := h1
  have hfree : cu - 0 ≤ count_false slots := by simpa using h2
  obtain ⟨ha1, ha2, ha3, ha4⟩ := alloc_slots_spec slots 0 0 cu hj hfree
  refine ⟨?_, ?_, ?_, ?_, ?_, ha1, ?_⟩
  · rw [List.length_take, free_positions_length]
    omega
  · exact List.Pairwise.sublist (List.take_sublist _ _)
      (free_positions_sorted slots 0)
  · intro p hp
    have := mem_free_positions_free slots 0 p (List.take_subset _ _ hp)
    simpa using this
  · intro k
    simpa using ha2 k
  · simpa using ha3
  · intro k
    simpa using ha4 k

/-- Witness for `alloc_slots_first_free`: table `[T,F,F,T,F,T,T,F]`,
width `2`; the chosen slots are `[1, 2]`. -/
theorem alloc_slots_first_free_witness :
    ((free_positions [true, false, false, true, false, true, true, false]
        0).take 2).length = 2 ∧
    ((free_positions [true, false, false, true, false, true, true, false]
        0).take 2).Sorted (· < ·) ∧
    (∀ p ∈ (free_positions
        [true, false, false, true, false, true, true, false] 0).take 2,
      p < [true, false, false, true, false, true, true, false].length ∧
        [true, false, false, true, false, true, true,
          false].getD p true = false) ∧
    (∀ k, (alloc_slots [true, false, false, true, false, true, true, false]
        0 0 2).2.testBit k =
      decide (k ∈ (free_positions
        [true, false, false, true, false, true, true, false] 0).take 2)) ∧
    popcount (alloc_slots [true, false, false, true, false, true, true, false]
        0 0 2).2 = 2 ∧
    (alloc_slots [true, false, false, true, false, true, true, false]
        0 0 2).1.length =
      [true, false, false, true, false, true, true, false].length ∧
    (∀ k, (alloc_slots [true, false, false, true, false, true, true, false]
        0 0 2).1.getD k true =
      ([true, false, false, true, false, true, true, false].getD k true ||
        decide (k ∈ (free_positions
          [true, false, false, true, false, true, true, false] 0).take 2))) :=
  alloc_slots_first_free [true, false, false, true, false, true, true, false]
    2 (by decide) (by decide)

/-! ### Slot release (execution_thread, setup.c:888-893) and the
scheduler/worker transition system (C4) -/

theorem popcount_eq_zero : ∀ n : Nat, popcount n = 0 ↔ n = 0 := by
  intro n
  induction n using Nat.strong_induction_on with
  | _ n ih =>
    rw [popcount_two_step]
    cases n with
    | zero => simp [popcount]
    | succ m =>
      have := ih ((m + 1) / 2) (Nat.div_lt_self (Nat.succ_pos m) Nat.one_lt_two)
      omega

/-- The slot-release loop of `execution_thread` (setup.c:888-893): the C
code walks bit positions `j = 0, 1, ...` of the finished record's
`slot_id`, clearing `slots_in_use[j]` at every set bit, and stops once
`cnt` (the record's `cu`) bits have been cleared.  The C loop's index is
not bounded by the table length; it stays inside the table exactly when
the mask holds `cnt` set bits below the table length, which the scheduler
invariant below guarantees.  The embedding walks the table. -/
def release_slots : List Bool → Nat → Nat → Nat → List Bool
  | [], _, _, _ => []
  | b :: rest, mask, j, cnt =>
    if cnt = 0 then b :: rest
    else if mask.testBit j then
      false :: release_slots rest mask (j + 1) (cnt - 1)
    else b :: release_slots rest mask (j + 1) cnt

theorem release_slots_spec :
    ∀ (slots : List Bool) (mask j cnt : Nat),
      cnt = popcount (mask >>> j) →
      (∀ k, mask.testBit k → k < j + slots.length) →
      (release_slots slots mask j cnt).length = slots.length ∧
      (∀ k, (release_slots slots mask j cnt).getD k true =
        (slots.getD k true && !(mask.testBit (j + k)))) := by
  intro slots
  induction slots with
  | nil =>
    intro mask j cnt hcnt hb
    refine ⟨rfl, fun k => ?_⟩
    have hk : ¬ mask.testBit (j + k) := fun hx => by
      have := hb (j + k) hx
      simp only [List.length_nil] at this
      omega
    simp [release_slots, hk]
  | cons b rest ih =>
    intro mask j cnt hcnt hb
    by_cases hzero : cnt = 0
    · have hsh : mask >>> j = 0 := by
        rw [hzero] at hcnt
        exact (popcount_eq_zero (mask >>> j)).mp hcnt.symm
      have hnone : ∀ k, ¬ mask.testBit (j + k) := fun k hx => by
        have : (mask >>> j).testBit k = mask.testBit (j + k) :=
          Nat.testBit_shiftRight mask
        rw [hsh, Nat.zero_testBit] at this
        rw [hx] at this
        exact Bool.false_ne_true this
      refine ⟨by simp [release_slots, hzero], fun k => ?_⟩
      simp [release_slots, hzero, hnone k]
    · have hb2 : ∀ k, mask.testBit k → k < (j + 1) + rest.length := fun k hx => by
        have := hb k hx
        simp at this ⊢
        omega
      have hstep : popcount (mask >>> j) =
          (mask >>> j) % 2 + popcount (mask >>> (j + 1)) := by
        rw [popcount_two_step (mask >>> j), Nat.shiftRight_succ]
      have hbit0 : (mask >>> j).testBit 0 = mask.testBit j := by
        rw [Nat.testBit_shiftRight]
        simp
      by_cases hj : mask.testBit j
      · have hm1 : (mask >>> j) % 2 = 1 := by
          rw [Nat.testBit_zero] at hbit0
          rw [hj] at hbit0
          exact of_decide_eq_true hbit0
        have hrec : cnt - 1 = popcount (mask >>> (j + 1)) := by omega
        obtain ⟨ih1, ih2⟩ := ih mask (j + 1) (cnt - 1) hrec hb2
        refine ⟨by simp [release_slots, hzero, hj, ih1], fun k => ?_⟩
        cases k with
        | zero => simp [release_slots, hzero, hj]
        | succ k =>
          simp only [release_slots, if_neg hzero, hj, if_true,
            List.getD_cons_succ]
          rw [ih2 k]
          have : (j + 1) + k = j + (k + 1) := by omega
          rw [this]
      · have hfalse : mask.testBit j = false := by
          cases hx : mask.testBit j with
          | false => rfl
          | true => exact absurd hx hj
        have hm0 : (mask >>> j) % 2 = 0 := by
          rw [hfalse] at hbit0
          rw [Nat.testBit_zero] at hbit0
          have := of_decide_eq_false hbit0
          omega
        have hrec : cnt = popcount (mask >>> (j + 1)) := by omega
        obtain ⟨ih1, ih2⟩ := ih mask (j + 1) cnt hrec hb2
        have hif : release_slots (b :: rest) mask j cnt =
            b :: release_slots rest mask (j + 1) cnt := by
          rw [release_slots, if_neg hzero, if_neg hj]
        refine ⟨by simp [hif, ih1], fun k => ?_⟩
        cases k with
        | zero => simp [hif, hfalse]
        | succ k =>
          rw [hif, List.getD_cons_succ, List.getD_cons_succ, ih2 k]
          have harith : (j + 1) + k = j + (k + 1) := by omega
          rw [harith]

theorem countP_eq_countP_range :
    ∀ (slots : List Bool) (p : Bool → Bool),
      slots.countP p =
        (List.range slots.length).countP (fun k => p (slots.getD k true)) := by
  intro slots
  induction slots with
  | nil => intro p; rfl
  | cons b rest ih =>
    intro p
    rw [List.countP_cons, List.length_cons, List.range_succ_eq_map,
      List.countP_cons, List.countP_map]
    have hcongr : List.countP
        ((fun k => p ((b :: rest).getD k true)) ∘ Nat.succ)
        (List.range rest.length) =
        List.countP (fun k => p (rest.getD k true)) (List.range rest.length) :=
      List.countP_congr (fun x _ => by simp [List.getD_cons_succ])
    rw [hcongr, ← ih p]
    simp [List.getD_cons_zero]

theorem popcount_eq_countP_range :
    ∀ m : Nat, ∀ N : Nat, (∀ k, m.testBit k → k < N) →
      popcount m = (List.range N).countP (fun k => m.testBit k) := by
  intro m
  induction m using Nat.strong_induction_on with
  | _ m ih =>
    intro N hN
    cases Nat.eq_zero_or_pos m with
    | inl h0 =>
      subst h0
      simp [Nat.zero_testBit, popcount]
    | inr hpos =>
      have hm0 : m ≠ 0 := by omega
      cases N with
      | zero =>
        exfalso
        apply hm0
        apply Nat.eq_of_testBit_eq
        intro i
        rw [Nat.zero_testBit]
        cases hx : m.testBit i with
        | false => rfl
        | true => exact absurd (hN i hx) (by omega)
      | succ N =>
        have hdiv : m / 2 < m := Nat.div_lt_self hpos Nat.one_lt_two
        have hbits : ∀ k, (m / 2).testBit k → k < N := fun k hx => by
          have hsu : m.testBit (k + 1) := by rw [Nat.testBit_succ]; exact hx
          have := hN (k + 1) hsu
          omega
        have ihh := ih (m / 2) hdiv N hbits
        rw [List.range_succ_eq_map, List.countP_cons, List.countP_map]
        have hcongr : List.countP ((fun k => m.testBit k) ∘ Nat.succ)
            (List.range N) =
            List.countP (fun k => (m / 2).testBit k) (List.range N) :=
          List.countP_congr (fun x _ => by
            simp [Function.comp, Nat.testBit_succ])
        rw [hcongr, ← ihh, popcount_two_step]
        have hmod : m % 2 = if m.testBit 0 then 1 else 0 := by
          rw [Nat.testBit_zero]
          rcases Nat.mod_two_eq_zero_or_one m with h | h <;> simp [h]
        by_cases h0 : m.testBit 0 <;> simp [h0] at hmod ⊢ <;> omega

/-- `NUM_SLOTS` for the ZCU build (setup.c:81). -/
def NUM_SLOTS : Nat := 8

/-- A record between dispatch and completion, as the conservation claim
sees it: its slot mask (`slot_id`) and its width (`cu`). -/
structure live_kernel where
  slot_id : Nat
  cu : Nat
deriving DecidableEq, Repr

/-- Shared scheduler/worker state: the `slots_in_use` table, the
`free_slots_variable` counter, and the set of live (dispatched, not yet
completed) records. -/
structure sched_state where
  slots_in_use : List Bool
  free_slots : Int
  live : List live_kernel
deriving DecidableEq, Repr

/-- Program start (setup.c:112, 116): all slots free,
`free_slots_variable = NUM_SLOTS`, nothing live. -/
def sched_init : sched_state :=
  ⟨List.replicate NUM_SLOTS false, (NUM_SLOTS : Int), []⟩

/-- Effect of one dispatch (queue_manager_thread, setup.c:722 and 737-745):
decrement `free_slots_variable` by the record's width and claim the first
`cu` free slots into the record's fresh mask. -/
def dispatch_state (st : sched_state) (cu : Nat) : sched_state :=
  ⟨(alloc_slots st.slots_in_use 0 0 cu).1,
    st.free_slots - cu,
    ⟨(alloc_slots st.slots_in_use 0 0 cu).2, cu⟩ :: st.live⟩

/-- Effect of one completion (execution_thread, setup.c:888-893 and 920):
clear the record's slots and return its width to `free_slots_variable`. -/
def complete_state (st : sched_state) (r : live_kernel) : sched_state :=
  ⟨release_slots st.slots_in_use r.slot_id 0 r.cu,
    st.free_slots + r.cu,
    st.live.erase r⟩

/-- The observable steps of the scheduler/worker protocol.  A dispatch
carries the guarantees the code establishes before reaching the slot loop:
the dequeued record's width is positive (admission draws it from
`{1,2,4,8}`) and does not exceed the free-slot count (the scan predicate
`cu <= free_slots`, and `free_slots_variable` can only have grown since the
snapshot, because only the scheduler decrements it).  A completion step
picks any live record. -/
inductive sched_step : sched_state → sched_state → Prop
  | dispatch (st : sched_state) (cu : Nat) (h1 : 1 ≤ cu)
      (h2 : (cu : Int) ≤ st.free_slots) :
      sched_step st (dispatch_state st cu)
  | complete (st : sched_state) (r : live_kernel) (hr : r ∈ st.live) :
      sched_step st (complete_state st r)

/-- States reachable from program start by scheduler and worker steps. -/
def sched_reachable : sched_state → Prop :=
  Relation.ReflTransGen sched_step sched_init

/-- OR of the slot masks of all live records. -/
def live_masks_or (live : List live_kernel) : Nat :=
  live.foldr (fun r m => r.slot_id ||| m) 0

/-- Sum of the widths of all live records. -/
def live_cu_sum (live : List live_kernel) : Nat :=
  (live.map (fun r => r.cu)).sum

theorem testBit_live_masks_or (live : List live_kernel) (k : Nat) :
    (live_masks_or live).testBit k =
      live.any (fun r => r.slot_id.testBit k) := by
  induction live with
  | nil => simp [live_masks_or, Nat.zero_testBit]
  | cons r rest ih =>
    show (r.slot_id ||| live_masks_or rest).testBit k = _
    rw [Nat.testBit_lor, ih, List.any_cons]

theorem list_any_perm {α : Type} {l1 l2 : List α} (p : α → Bool)
    (h : l1.Perm l2) : l1.any p = l2.any p := by
  induction h with
  | nil => rfl
  | cons x _ ih => simp [ih]
  | swap x y l => simp [Bool.or_left_comm]
  | trans _ _ ih1 ih2 => rw [ih1, ih2]

theorem testBit_eq_false_of_land_eq_zero {m n : Nat} (h : m &&& n = 0)
    {k : Nat} (hm : m.testBit k = true) : n.testBit k = false := by
  have := congrArg (fun x => Nat.testBit x k) h
  simp only [Nat.testBit_land, Nat.zero_testBit] at this
  rw [hm] at this
  simpa using this

theorem land_eq_zero_of_testBit {m n : Nat}
    (h : ∀ k, m.testBit k = true → n.testBit k = false) : m &&& n = 0 :=
  Nat.eq_of_testBit_eq fun k => by
    rw [Nat.testBit_land, Nat.zero_testBit]
    cases hx : m.testBit k with
    | false => rfl
    | true => simp [h k hx]

theorem land_live_masks_or_eq_zero {m : Nat} {live : List live_kernel}
    (h : ∀ r ∈ live, m &&& r.slot_id = 0) : m &&& live_masks_or live = 0 := by
  apply land_eq_zero_of_testBit
  intro k hk
  rw [testBit_live_masks_or, List.any_eq_false]
  intro r hr
  have hf := testBit_eq_false_of_land_eq_zero (h r hr) hk
  simp [hf]

theorem popcount_live_masks_or (live : List live_kernel)
    (hdis : live.Pairwise (fun r s => r.slot_id &&& s.slot_id = 0)) :
    popcount (live_masks_or live) =
      (live.map (fun r => popcount r.slot_id)).sum := by
  induction live with
  | nil => simp [live_masks_or, popcount]
  | cons r rest ih =>
    rw [List.pairwise_cons] at hdis
    have hd : r.slot_id &&& live_masks_or rest = 0 :=
      land_live_masks_or_eq_zero (fun s hs => hdis.1 s hs)
    show popcount (r.slot_id ||| live_masks_or rest) = _
    rw [popcount_lor_disjoint _ _ hd, ih hdis.2]
    simp

/-- The scheduler/worker invariant: the table has `NUM_SLOTS` entries; every
live record's mask has exactly `cu` bits, all below `NUM_SLOTS`; live masks
are pairwise disjoint; a table entry is busy exactly when some live mask
covers it; and the live widths plus `free_slots_variable` account for all
`NUM_SLOTS` slots. -/
def sched_inv (st : sched_state) : Prop :=
  st.slots_in_use.length = NUM_SLOTS ∧
  (∀ r ∈ st.live, popcount r.slot_id = r.cu ∧ 1 ≤ r.cu ∧
    ∀ k, r.slot_id.testBit k → k < NUM_SLOTS) ∧
  st.live.Pairwise (fun r s => r.slot_id &&& s.slot_id = 0) ∧
  (∀ k, k < NUM_SLOTS →
    st.slots_in_use.getD k true = (live_masks_or st.live).testBit k) ∧
  ((live_cu_sum st.live : Int) + st.free_slots = (NUM_SLOTS : Int))

theorem sched_inv_popcount_or {st : sched_state} (h : sched_inv st) :
    popcount (live_masks_or st.live) = live_cu_sum st.live := by
  rw [popcount_live_masks_or st.live h.2.2.1, live_cu_sum]
  exact congrArg List.sum (List.map_congr_left (fun r hr => (h.2.1 r hr).1))

theorem sched_inv_bits_lt {st : sched_state} (h : sched_inv st) :
    ∀ k, (live_masks_or st.live).testBit k → k < NUM_SLOTS := by
  intro k hk
  rw [testBit_live_masks_or, List.any_eq_true] at hk
  obtain ⟨r, hr, hx⟩ := hk
  exact (h.2.1 r hr).2.2 k hx

theorem sched_inv_count_false {st : sched_state} (h : sched_inv st) :
    (count_false st.slots_in_use : Int) = st.free_slots := by
  have h1 : count_false st.slots_in_use =
      (List.range NUM_SLOTS).countP
        (fun k => !(live_masks_or st.live).testBit k) := by
    rw [count_false, countP_eq_countP_range, h.1]
    exact List.countP_congr (fun k hk => by
      rw [List.mem_range] at hk
      rw [h.2.2.2.1 k hk])
  have h2 := List.length_eq_countP_add_countP
    (fun k => (live_masks_or st.live).testBit k) (List.range NUM_SLOTS)
  rw [List.length_range] at h2
  have h2' : (List.range NUM_SLOTS).countP
      (fun a => decide ¬((live_masks_or st.live).testBit a = true)) =
      (List.range NUM_SLOTS).countP
        (fun k => !(live_masks_or st.live).testBit k) :=
    List.countP_congr (fun k _ => by simp)
  have h3 : popcount (live_masks_or st.live) =
      (List.range NUM_SLOTS).countP
        (fun k => (live_masks_or st.live).testBit k) :=
    popcount_eq_countP_range _ NUM_SLOTS (sched_inv_bits_lt h)
  have h4 := sched_inv_popcount_or h
  have h5 := h.2.2.2.2
  omega

theorem sched_inv_init : sched_inv sched_init := by
  refine ⟨by simp [sched_init], by simp [sched_init], by simp [sched_init],
    ?_, by simp [sched_init, live_cu_sum]⟩
  intro k hk
  show (List.replicate NUM_SLOTS false).getD k true =
    (live_masks_or []).testBit k
  have hz : (live_masks_or []).testBit k = false := by
    simp [live_masks_or, Nat.zero_testBit]
  rw [hz]
  simp only [NUM_SLOTS] at hk
  interval_cases k <;> rfl

theorem sched_inv_dispatch {st : sched_state} (h : sched_inv st) (cu : Nat)
    (h1 : 1 ≤ cu) (h2 : (cu : Int) ≤ st.free_slots) :
    sched_inv (dispatch_state st cu) := by
  have hcf := sched_inv_count_false h
  have hcu_le : cu ≤ count_false st.slots_in_use := by omega
  obtain ⟨hlen_t, hsorted, hfree_mem, hmask, hpop, hslen, hgetd⟩ :=
    alloc_slots_first_free st.slots_in_use cu h1 hcu_le
  obtain ⟨ha, hb, hc, hd, he⟩ := h
  have hnew_bits : ∀ k,
      (alloc_slots st.slots_in_use 0 0 cu).2.testBit k → k < NUM_SLOTS := by
    intro k hk
    rw [hmask k] at hk
    have := (hfree_mem k (of_decide_eq_true hk)).1
    omega
  have hdisj_new : ∀ s ∈ st.live,
      (alloc_slots st.slots_in_use 0 0 cu).2 &&& s.slot_id = 0 := by
    intro s hs
    apply land_eq_zero_of_testBit
    intro k hk
    rw [hmask k] at hk
    obtain ⟨hklt, hkfree⟩ := hfree_mem k (of_decide_eq_true hk)
    have hklt' : k < NUM_SLOTS := by omega
    have hUk : (live_masks_or st.live).testBit k = false := by
      rw [← hd k hklt', hkfree]
    rw [testBit_live_masks_or, List.any_eq_false] at hUk
    have := hUk s hs
    simpa using this
  refine ⟨by rw [dispatch_state] at *; simpa [ha] using hslen, ?_, ?_, ?_, ?_⟩
  · intro r hr
    rcases List.mem_cons.mp hr with rfl | hr
    · exact ⟨hpop, h1, hnew_bits⟩
    · exact hb r hr
  · exact List.pairwise_cons.mpr ⟨hdisj_new, hc⟩
  · intro k hk
    show (alloc_slots st.slots_in_use 0 0 cu).1.getD k true =
      ((alloc_slots st.slots_in_use 0 0 cu).2 |||
        live_masks_or st.live).testBit k
    rw [hgetd k, Nat.testBit_lor, hmask k, hd k hk, Bool.or_comm]
  · show (live_cu_sum (⟨(alloc_slots st.slots_in_use 0 0 cu).2, cu⟩ ::
      st.live) : Int) + (st.free_slots - cu) = (NUM_SLOTS : Int)
    have hsum : live_cu_sum (⟨(alloc_slots st.slots_in_use 0 0 cu).2, cu⟩ ::
        st.live) = cu + live_cu_sum st.live := by
      simp [live_cu_sum]
    rw [hsum]
    push_cast
    omega

theorem sched_inv_complete {st : sched_state} (h : sched_inv st)
    (r : live_kernel) (hr : r ∈ st.live) :
    sched_inv (complete_state st r) := by
  obtain ⟨ha, hb, hc, hd, he⟩ := h
  obtain ⟨hpc, hcu1, hbits⟩ := hb r hr
  obtain ⟨hrlen, hrget⟩ := release_slots_spec st.slots_in_use r.slot_id 0 r.cu
    (by rw [Nat.shiftRight_zero]; exact hpc.symm)
    (fun k hk => by rw [ha]; simpa using hbits k hk)
  have hperm : st.live.Perm (r :: st.live.erase r) := List.perm_cons_erase hr
  have hsymm : ∀ {a b : live_kernel}, a.slot_id &&& b.slot_id = 0 →
      b.slot_id &&& a.slot_id = 0 := fun hab => by
    rw [Nat.land_comm]; exact hab
  have hpair : (r :: st.live.erase r).Pairwise
      (fun a b => a.slot_id &&& b.slot_id = 0) :=
    (List.Perm.pairwise_iff hsymm hperm).mp hc
  have hhead : ∀ s ∈ st.live.erase r, r.slot_id &&& s.slot_id = 0 :=
    (List.pairwise_cons.mp hpair).1
  have hU : ∀ k, (live_masks_or st.live).testBit k =
      (r.slot_id.testBit k ||
        (live_masks_or (st.live.erase r)).testBit k) := by
    intro k
    rw [testBit_live_masks_or, list_any_perm _ hperm, List.any_cons,
      ← testBit_live_masks_or]
  have hUdisj : r.slot_id &&& live_masks_or (st.live.erase r) = 0 :=
    land_live_masks_or_eq_zero hhead
  refine ⟨by rw [complete_state] at *; simpa [ha] using hrlen, ?_, ?_, ?_, ?_⟩
  · intro s hs
    exact hb s (List.erase_subset r st.live hs)
  · exact List.Pairwise.sublist (List.erase_sublist r st.live) hc
  · intro k hk
    show (release_slots st.slots_in_use r.slot_id 0 r.cu).getD k true =
      (live_masks_or (st.live.erase r)).testBit k
    rw [hrget k]
    have h0k : (0 : Nat) + k = k := by omega
    rw [h0k, hd k hk, hU k]
    cases hx : r.slot_id.testBit k with
    | false => simp
    | true =>
      have := testBit_eq_false_of_land_eq_zero hUdisj hx
      simp [this]
  · show (live_cu_sum (st.live.erase r) : Int) + (st.free_slots + r.cu) =
      (NUM_SLOTS : Int)
    have hsum : live_cu_sum st.live = r.cu + live_cu_sum (st.live.erase r) := by
      have := List.Perm.sum_eq (List.Perm.map (fun x => x.cu) hperm)
      simpa [live_cu_sum] using this
    omega

theorem sched_inv_reachable {st : sched_state} (h : sched_reachable st) :
    sched_inv st := by
  induction h with
  | refl => exact sched_inv_init
  | tail _ hstep ih =>
    cases hstep with
    | dispatch cu h1 h2 => exact sched_inv_dispatch ih cu h1 h2
    | complete r hr => exact sched_inv_complete ih r hr

/-- C4: in every reachable state of the scheduler/worker protocol the bits
set across the live records' slot masks plus `free_slots_variable` account
for all `NUM_SLOTS` slots; a dispatch of width `cu` decrements the counter
by `cu` and sets exactly `cu` mask bits, a completion clears exactly the
finished record's mask bits and increments the counter by its width, and
the conservation equation holds again after either step. -/
theorem slot_conservation (st : sched_state) (h : sched_reachable st) :
    ((popcount (live_masks_or st.live) : Int) + st.free_slots =
      (NUM_SLOTS : Int)) ∧
    (∀ cu : Nat, 1 ≤ cu → (cu : Int) ≤ st.free_slots →
      (dispatch_state st cu).free_slots = st.free_slots - cu ∧
      popcount (alloc_slots st.slots_in_use 0 0 cu).2 = cu ∧
      ((popcount (live_masks_or (dispatch_state st cu).live) : Int) +
        (dispatch_state st cu).free_slots = (NUM_SLOTS : Int))) ∧
    (∀ r ∈ st.live,
      (complete_state st r).free_slots = st.free_slots + r.cu ∧
      popcount r.slot_id = r.cu ∧
      (∀ k, (complete_state st r).slots_in_use.getD k true =
        (st.slots_in_use.getD k true && !(r.slot_id.testBit k))) ∧
      ((popcount (live_masks_or (complete_state st r).live) : Int) +
        (complete_state st r).free_slots = (NUM_SLOTS : Int))) := by
  have hinv := sched_inv_reachable h
  have hcons : ∀ st' : sched_state, sched_inv st' →
      (popcount (live_masks_or st'.live) : Int) + st'.free_slots =
        (NUM_SLOTS : Int) := by
    intro st' h'
    rw [sched_inv_popcount_or h']
    exact h'.2.2.2.2
  refine ⟨hcons st hinv, ?_, ?_⟩
  · intro cu h1 h2
    have hinv' := sched_inv_dispatch hinv cu h1 h2
    have hcf := sched_inv_count_false hinv
    have hcu_le : cu ≤ count_false st.slots_in_use := by omega
    obtain ⟨_, _, _, _, hpop, _, _⟩ :=
      alloc_slots_first_free st.slots_in_use cu h1 hcu_le
    exact ⟨rfl, hpop, hcons _ hinv'⟩
  · intro r hr
    have hinv' := sched_inv_complete hinv r hr
    obtain ⟨hpc, _, hbits⟩ := hinv.2.1 r hr
    obtain ⟨_, hrget⟩ := release_slots_spec st.slots_in_use r.slot_id 0 r.cu
      (by rw [Nat.shiftRight_zero]; exact hpc.symm)
      (fun k hk => by rw [hinv.1]; simpa using hbits k hk)
    refine ⟨rfl, hpc, fun k => ?_, hcons _ hinv'⟩
    have h0k : (0 : Nat) + k = k := by omega
    have := hrget k
    rw [h0k] at this
    exact this

/-- Witness for `slot_conservation`: the state after one dispatch of width
`2` from the initial state. -/
theorem slot_conservation_witness :
    (popcount (live_masks_or (dispatch_state sched_init 2).live) : Int) +
      (dispatch_state sched_init 2).free_slots = (NUM_SLOTS : Int) :=
  (slot_conservation (dispatch_state sched_init 2)
    (Relation.ReflTransGen.single
      (sched_step.dispatch sched_init 2 (by norm_num)
        (by norm_num [sched_init, NUM_SLOTS])))).1

end FpgaWm

